import Mathlib

/-!
Verification of the distributed DES brute-force key search
(`src/mpi_bruteforce.cpp`, `src/mpi_bruteforce_v2.cpp`, `src/mpi_bruteforce_v3.cpp`,
`src/naive_sequential.cpp`) against its natural-language specification.

The cipher primitive (OpenSSL DES) is an external collaborator and is kept
abstract, except for `DES_set_odd_parity`, whose per-byte parity
normalization is modelled concretely because the specification makes claims
about it.  Byte buffers are `List Nat` (each element one byte), C strings are
read up to the first NUL, and C `long`/`uint64_t` arithmetic is modelled on
`Nat`/`Int` (all values involved stay far below 2^63, so no overflow occurs
in the modelled code paths).
-/

set_option maxHeartbeats 1000000

namespace DESBrute

/-! ## Cipher-side definitions (mpi_bruteforce.cpp lines 109-173) -/

/-- One byte normalized by `DES_set_odd_parity`: the low (parity) bit is
forced so that the byte has an odd number of set bits; the upper seven bits
(`b / 2`) are unchanged.  The parity of the upper bits is computed via the
binary digit sum. -/
def oddParityByte (b : Nat) : Nat :=
  2 * (b / 2) + (if (Nat.digits 2 (b / 2)).sum % 2 = 0 then 1 else 0)

/-- `DES_set_odd_parity` applied to an 8-byte key block (`decrypt`/`encrypt`
call it on `keyBlock` before building the key schedule). -/
def setOddParity (key : List Nat) : List Nat :=
  key.map oddParityByte

/-- The opaque DES collaborator (OpenSSL): `weak kb` models
`DES_set_key_checked` failing on the parity-normalized key block `kb`
(weak key or bad parity); `decryptBlocks kb ct` models the ECB decryption
loop output.  Both are pure functions of their arguments. -/
structure Cipher where
  weak : List Nat → Bool
  decryptBlocks : List Nat → List Nat → List Nat

/-- `decrypt` (mpi_bruteforce.cpp lines 109-135): normalizes the key with
`DES_set_odd_parity`; if `DES_set_key_checked` rejects it the function
returns WITHOUT writing, so the caller's output buffer keeps its previous
contents `buf`; otherwise the buffer is overwritten with the DES output. -/
def decrypt (c : Cipher) (key ct buf : List Nat) : List Nat :=
  if c.weak (setOddParity key) then buf else c.decryptBlocks (setOddParity key) ct

/-- `longToKey` (mpi_bruteforce.cpp lines 143-147): big-endian 8-byte
encoding, `keyArray[7-i] = (key >> (i*8)) & 0xFF`, so element `j` is
`(key >> ((7-j)*8)) & 0xFF`. -/
def longToKey (key : Nat) : List Nat :=
  (List.range 8).map (fun j => key / 2 ^ (8 * (7 - j)) % 256)

/-- A byte buffer read as a C string: everything up to the first NUL
(`strlen`/`strstr` semantics in `tryKey`). -/
def cstr (l : List Nat) : List Nat :=
  l.takeWhile (fun b => b != 0)

/-- `strstr(hay, phrase) != nullptr`: the needle occurs contiguously in the
haystack C string. -/
def strstrHit (phrase hay : List Nat) : Bool :=
  decide (phrase <:+: cstr hay)

/-- `tryKey` (mpi_bruteforce.cpp lines 159-173).  `buf` is the content of the
stack buffer `temp` before `decrypt` runs (the code never clears it, so on a
weak key the predicate is evaluated on this leftover content).  The
`strlen == 0` guard and the `strstr` search both read `temp` as a C string. -/
def tryKey (c : Cipher) (key : Nat) (ct phrase buf : List Nat) : Bool :=
  if (cstr (decrypt c (longToKey key) ct buf)).length = 0 then false
  else strstrHit phrase (decrypt c (longToKey key) ct buf)

/-! ## v1 per-process search (mpi_bruteforce.cpp lines 287-343)

The predicate `p key` abstracts `tryKey(key, ciphertext, paddedLength,
searchPhrase)` for the fixed broadcast ciphertext and phrase. -/

/-- The brute-force loop body (lines 301-319) over `fuel` consecutive keys
starting at `lo`: returns the first key accepted by `p`, or `0` — the code's
`foundKey` keeps its initial value `0` when nothing is found, so `0` doubles
as the not-found sentinel. -/
def searchLoop (p : Nat → Bool) (lo : Nat) : Nat → Nat
  | 0 => 0
  | fuel + 1 => if p lo then lo else searchLoop p (lo + 1) fuel

/-- One process's search over `[lo, hi)`. -/
def localSearch (p : Nat → Bool) (lo hi : Nat) : Nat :=
  searchLoop p lo (hi - lo)

/-- `upperBound` (line 287): the full key space bound `2^56`. -/
def upperBound : Nat := 2 ^ 56

/-- `keysPerProcess` (line 288). -/
def keysPerProcess (numProcesses : Nat) : Nat := upperBound / numProcesses

/-- `lowerBound` (line 289). -/
def lowerBound (numProcesses rank : Nat) : Nat :=
  keysPerProcess numProcesses * rank

/-- `upperBoundLocal` (line 290): the last rank absorbs the remainder. -/
def upperBoundLocal (numProcesses rank : Nat) : Nat :=
  if rank = numProcesses - 1 then upperBound
  else keysPerProcess numProcesses * (rank + 1)

/-- The local result of one rank's loop. -/
def rankResult (p : Nat → Bool) (numProcesses rank : Nat) : Nat :=
  localSearch p (lowerBound numProcesses rank) (upperBoundLocal numProcesses rank)

/-- Rank 0's final `foundKey` (lines 292-343): each rank that finds a key
sends it to every other process, and a rank that finds nothing leaves its
`foundKey` at `0`; assuming message delivery, rank 0 ends up with the unique
nonzero local result if one exists, else `0`.  Modelled by scanning the
ranks' results in order and keeping the first nonzero one. -/
def collectFound (p : Nat → Bool) (numProcesses : Nat) : Nat → Nat
  | 0 => 0
  | r + 1 =>
    if collectFound p numProcesses r ≠ 0 then collectFound p numProcesses r
    else rankResult p numProcesses r

/-- The global found key at rank 0 after all ranks ran. -/
def globalFoundKey (p : Nat → Bool) (numProcesses : Nat) : Nat :=
  collectFound p numProcesses numProcesses

/-- Rank 0's report (lines 326-343): `some k` for "Key found: k" when
`foundKey != 0`, `none` for "Key not found in the specified range." -/
def reportV1 (p : Nat → Bool) (numProcesses : Nat) : Option Nat :=
  if globalFoundKey p numProcesses ≠ 0 then some (globalFoundKey p numProcesses)
  else none

/-! ## v2 found-key state (mpi_bruteforce_v2.cpp lines 247-334)

Per process, v2 keeps a flag/value pair (`keyFound`, `foundKey`); the OpenMP
threads update it through a critical section, the MPI receive loop updates
it on incoming announcements. -/

/-- A process's found-key slot: the pair of `keyFound` (initially false) and
`foundKey` (initially 0). -/
structure FoundState where
  keyFound : Bool
  foundKey : Nat
deriving DecidableEq

/-- The `#pragma omp critical` block (v2 lines 292-298): a verify hit with
key `key` writes the slot only if it is still unset. -/
def criticalUpdate (st : FoundState) (key : Nat) : FoundState :=
  if st.keyFound then st else ⟨true, key⟩

/-- Serialized effect of the critical section over the sequence `ks` of keys
whose verify succeeded, in the order the threads entered the section. -/
def runCritical (st : FoundState) (ks : List Nat) : FoundState :=
  ks.foldl criticalUpdate st

/-- Receipt of one found-key announcement (v2 lines 320-325):
`globalFoundKey = receivedKey; globalKeyFound = true; keyFound = true;
foundKey = receivedKey` — the incoming key is adopted unconditionally,
with no comparison against the current value. -/
def recvFound (_st : FoundState) (receivedKey : Nat) : FoundState :=
  ⟨true, receivedKey⟩

/-- The `MPI_Iprobe`/`MPI_Recv` drain loop (v2 lines 314-329) over the
pending announcements `msgs`, in arrival order. -/
def recvAll (st : FoundState) (msgs : List Nat) : FoundState :=
  msgs.foldl recvFound st

/-! ## v3 partitioner, dispatcher and worker queue (mpi_bruteforce_v3.cpp) -/

/-- `KeySpace` (v3 lines 169-180): a half-open range `[start, stop)` of
`long` keys.  The source's `double priority` field is a scheduling hint
drawn from `random_device`; it is irrelevant to (and omitted from) every
property below. -/
structure KeySpace where
  start : Int
  stop : Int
deriving DecidableEq

/-- `generateIntelligentKeySpaces` (v3 lines 200-218) for
`(long start, long end, int numSpaces)`: `spaceSize = (end - start) /
numSpaces` (C++ `long` division truncates toward zero, `Int.tdiv`);
`numSpaces` iterations produce `[start + i*spaceSize, ...)`, the last one
ending at `end`.  The final `std::sort` by the random priorities only
permutes the vector and is omitted; "the last sub-range" below refers to the
remainder-absorbing one built at `i == numSpaces - 1`.  (The source performs
no argument validation; at `numSpaces == 0` the C++ divides by zero.) -/
def generateIntelligentKeySpaces (s e : Int) (numSpaces : Int) : List KeySpace :=
  let spaceSize := (e - s).tdiv numSpaces
  (List.range numSpaces.toNat).map (fun i : Nat =>
    let spaceStart := s + (i : Int) * spaceSize
    ⟨spaceStart, if (i : Int) = numSpaces - 1 then e else spaceStart + spaceSize⟩)

/-- The `i`-th sub-range constructed by `generateIntelligentKeySpaces`
(the body of its loop, named for the proofs). -/
def spaceAt (s e c : Int) (i : Nat) : KeySpace :=
  ⟨s + (i : Int) * ((e - s).tdiv c),
   if (i : Int) = c - 1 then e
   else s + (i : Int) * ((e - s).tdiv c) + (e - s).tdiv c⟩

/-- The dispatcher's handling of one work-request (v3 lines 489-501): with a
non-empty backlog it pops the back and sends it; with an empty backlog it
replies with the sentinel `KeySpace{0, 0, 0}` ("no more work") — it always
replies. -/
def dispatcherReply (keySpaces : List KeySpace) : KeySpace × List KeySpace :=
  match keySpaces with
  | [] => (⟨0, 0⟩, [])
  | x :: xs => ((x :: xs).getLast (List.cons_ne_nil x xs), (x :: xs).dropLast)

/-- The worker's handling of a work-reply (v3 lines 480-486): only a space
with `start != end` is enqueued; the empty sentinel leaves the local queue
unchanged. -/
def workerHandleReply (localKeySpaces : List KeySpace) (space : KeySpace) :
    List KeySpace :=
  if space.start ≠ space.stop then localKeySpaces ++ [space] else localKeySpaces

/-! ## v3 pipeline (mpi_bruteforce_v3.cpp lines 190-309)

`searchRange` spawns three threads over a shared `PipelineData` and joins
all of them.  We model the shared state and the threads' enabled transitions
as a step relation; the condition-variable waits appear as absence of an
enabled step (`pipelineEncrypt`'s `cv.wait` only returns when the generated
queue is non-empty or `keyFound` is set, likewise `pipelineCompare`).
`decBuf key` abstracts the decrypted buffer produced for `key` (v3 lines
263-267) and `matchb` the `strstr` test of `pipelineCompare` (line 288). -/

/-- `PipelineData` (v3 lines 190-197) together with the three threads' local
progress: `genPos` is `pipelineGenerate`'s loop variable, and the `*Done`
flags record that the corresponding thread has returned. -/
structure PipeState where
  generatedKeys : List Int
  encryptedData : List (Int × List Nat)
  genPos : Int
  keyFound : Bool
  foundKey : Int
  genDone : Bool
  encDone : Bool
  cmpDone : Bool
deriving DecidableEq

/-- The state `searchRange` starts the three threads in (v3 lines 297-302):
empty queues, `keyFound = false`, `foundKey = 0`, generation at
`space.start`. -/
def pipeInit (space : KeySpace) : PipeState :=
  ⟨[], [], space.start, false, 0, false, false, false⟩

/-- One enabled transition of a pipeline thread (v3 lines 241-295).
`pipelineGenerate` pushes the next key while `genPos < space.stop` and exits
after a push once `keyFound` is set, or when the range is exhausted.
`pipelineEncrypt` exits when `keyFound` is set, and otherwise can only move
when the generated-keys queue is non-empty (its `cv.wait`); it then decrypts
and pushes downstream.  `pipelineCompare` exits when `keyFound` is set, and
otherwise can only move when the encrypted-data queue is non-empty; a
`strstr` hit sets `keyFound`/`foundKey` and exits. -/
inductive PipeStep (space : KeySpace) (decBuf : Int → List Nat)
    (matchb : List Nat → Bool) : PipeState → PipeState → Prop
  | genPush (s : PipeState) (h1 : s.genDone = false) (h2 : s.genPos < space.stop) :
      PipeStep space decBuf matchb s
        { s with generatedKeys := s.generatedKeys ++ [s.genPos],
                 genPos := s.genPos + 1 }
  | genBreakFound (s : PipeState) (h1 : s.genDone = false) (h2 : s.keyFound = true) :
      PipeStep space decBuf matchb s { s with genDone := true }
  | genFinish (s : PipeState) (h1 : s.genDone = false) (h2 : space.stop ≤ s.genPos) :
      PipeStep space decBuf matchb s { s with genDone := true }
  | encConsume (s : PipeState) (k : Int) (rest : List Int)
      (h1 : s.encDone = false) (h2 : s.keyFound = false)
      (h3 : s.generatedKeys = k :: rest) :
      PipeStep space decBuf matchb s
        { s with generatedKeys := rest,
                 encryptedData := s.encryptedData ++ [(k, decBuf k)] }
  | encBreakFound (s : PipeState) (h1 : s.encDone = false) (h2 : s.keyFound = true) :
      PipeStep space decBuf matchb s { s with encDone := true }
  | cmpConsumeMiss (s : PipeState) (k : Int) (b : List Nat) (rest : List (Int × List Nat))
      (h1 : s.cmpDone = false) (h2 : s.keyFound = false)
      (h3 : s.encryptedData = (k, b) :: rest) (h4 : matchb b = false) :
      PipeStep space decBuf matchb s { s with encryptedData := rest }
  | cmpConsumeHit (s : PipeState) (k : Int) (b : List Nat) (rest : List (Int × List Nat))
      (h1 : s.cmpDone = false) (h2 : s.keyFound = false)
      (h3 : s.encryptedData = (k, b) :: rest) (h4 : matchb b = true) :
      PipeStep space decBuf matchb s
        { s with encryptedData := rest, keyFound := true, foundKey := k,
                 cmpDone := true }
  | cmpBreakFound (s : PipeState) (h1 : s.cmpDone = false) (h2 : s.keyFound = true) :
      PipeStep space decBuf matchb s { s with cmpDone := true }

/-- All states the pipeline can reach from `searchRange`'s initial state. -/
def PipeReach (space : KeySpace) (decBuf : Int → List Nat)
    (matchb : List Nat → Bool) : PipeState → Prop :=
  Relation.ReflTransGen (PipeStep space decBuf matchb) (pipeInit space)

/-! ## Verification-layer helpers -/

/-- A concrete cipher collaborator whose key-schedule check rejects every
key, for exercising the weak-key path of `decrypt`/`tryKey`. -/
def alwaysWeakCipher : Cipher :=
  ⟨fun _ => true, fun _ _ => []⟩

/-- The 8 parity bits of a 64-bit KeyId: the least-significant bit of each of
the 8 bytes of its blob (bits 0, 8, ..., 56), packed into one number below
`2^8`.  Used to bound the size of a parity-collapse class. -/
def parityIdx (k : Nat) : Nat :=
  k % 2 + k / 256 % 2 * 2 + k / 65536 % 2 * 4 + k / 16777216 % 2 * 8 +
    k / 4294967296 % 2 * 16 + k / 1099511627776 % 2 * 32 +
    k / 281474976710656 % 2 * 64 + k / 72057594037927936 % 2 * 128

/-! ## Properties of the v1 search loop and static partition -/

theorem searchLoop_eq_zero (p : Nat → Bool) :
    ∀ fuel lo, (∀ k, lo ≤ k → k < lo + fuel → p k = false) →
      searchLoop p lo fuel = 0 := by
  intro fuel
  induction fuel with
  | zero => intro lo _; rfl
  | succ n ih =>
    intro lo h
    have hlo : p lo = false := h lo le_rfl (by omega)
    simp only [searchLoop, hlo, Bool.false_eq_true, if_false]
    exact ih (lo + 1) (fun k hk1 hk2 => h k (by omega) (by omega))

theorem searchLoop_finds (p : Nat → Bool) :
    ∀ fuel lo k0, lo ≤ k0 → k0 < lo + fuel → p k0 = true →
      (∀ j, lo ≤ j → j < k0 → p j = false) →
      searchLoop p lo fuel = k0 := by
  intro fuel
  induction fuel with
  | zero => intro lo k0 h1 h2 _ _; omega
  | succ n ih =>
    intro lo k0 h1 h2 hp hbelow
    rcases eq_or_lt_of_le h1 with heq | hlt
    · subst heq; simp [searchLoop, hp]
    · have hlo : p lo = false := hbelow lo le_rfl hlt
      simp only [searchLoop, hlo, Bool.false_eq_true, if_false]
      exact ih (lo + 1) k0 (by omega) (by omega) hp
        (fun j hj1 hj2 => hbelow j (by omega) hj2)

theorem searchLoop_head (p : Nat → Bool) (lo fuel : Nat) (hf : 0 < fuel)
    (hp : p lo = true) : searchLoop p lo fuel = lo := by
  cases fuel with
  | zero => omega
  | succ n => simp [searchLoop, hp]

/-- Every rank's static slice stays inside the full key space. -/
theorem upperBoundLocal_le (n r : Nat) (hr : r < n) :
    upperBoundLocal n r ≤ upperBound := by
  unfold upperBoundLocal
  split
  · exact le_rfl
  · calc keysPerProcess n * (r + 1) ≤ keysPerProcess n * n :=
          Nat.mul_le_mul_left _ (by omega)
      _ = upperBound / n * n := rfl
      _ ≤ upperBound := Nat.div_mul_le_self _ _

/-- Every key of the full space lies in some rank's static slice. -/
theorem rank_coverage (n : Nat) (hn : 1 ≤ n) (k : Nat) (hk : k < upperBound) :
    ∃ r, r < n ∧ lowerBound n r ≤ k ∧ k < upperBoundLocal n r := by
  by_cases hcase : k < keysPerProcess n * (n - 1)
  · have hq : 0 < keysPerProcess n := by
      rcases Nat.eq_zero_or_pos (keysPerProcess n) with h0 | h0
      · rw [h0] at hcase; omega
      · exact h0
    refine ⟨k / keysPerProcess n, ?_, ?_, ?_⟩
    · have : k / keysPerProcess n < n - 1 :=
        (Nat.div_lt_iff_lt_mul hq).mpr (by rw [Nat.mul_comm]; exact hcase)
      omega
    · unfold lowerBound
      rw [Nat.mul_comm]
      exact Nat.div_mul_le_self k _
    · have hne : k / keysPerProcess n ≠ n - 1 := by
        have : k / keysPerProcess n < n - 1 :=
          (Nat.div_lt_iff_lt_mul hq).mpr (by rw [Nat.mul_comm]; exact hcase)
        omega
      unfold upperBoundLocal
      rw [if_neg hne, Nat.mul_succ]
      have hdm := Nat.div_add_mod k (keysPerProcess n)
      have hm := Nat.mod_lt k hq
      linarith
  · refine ⟨n - 1, by omega, ?_, ?_⟩
    · unfold lowerBound
      exact not_lt.mp hcase
    · unfold upperBoundLocal
      rw [if_pos rfl]
      exact hk

/-- Static slices of distinct ranks are disjoint (in increasing order). -/
theorem rank_disjoint (n r1 r2 : Nat) (h12 : r1 < r2) (h2n : r2 < n) :
    upperBoundLocal n r1 ≤ lowerBound n r2 := by
  have hne : r1 ≠ n - 1 := by omega
  unfold upperBoundLocal lowerBound
  rw [if_neg hne]
  exact Nat.mul_le_mul_left _ (by omega)

/-- With a unique nonzero hit at rank `r0` and all other ranks empty-handed,
scanning the first `m ≤ n` ranks yields `k0` exactly when `r0` was scanned. -/
theorem collectFound_eq (p : Nat → Bool) (n r0 k0 : Nat) (hk0 : k0 ≠ 0)
    (hr0 : rankResult p n r0 = k0)
    (hother : ∀ r, r < n → r ≠ r0 → rankResult p n r = 0) :
    ∀ m, m ≤ n → collectFound p n m = if r0 < m then k0 else 0 := by
  intro m
  induction m with
  | zero => intro _; simp [collectFound]
  | succ m ih =>
    intro hm
    have prev := ih (by omega)
    simp only [collectFound, prev]
    by_cases h : r0 < m
    · simp [h, hk0, show r0 < m + 1 by omega]
    · simp only [h, if_false, ne_eq, not_true_eq_false, not_not]
      by_cases heq : r0 = m
      · subst heq
        simp [hr0, hk0]
      · rw [hother m (by omega) (by omega)]
        simp [show ¬(r0 < m + 1) by omega]

/-- C1, amended: with a unique satisfying key that is nonzero, every run
reports it.  (The key-0 exception is the subject of the counterexample.) -/
theorem completeness_reports_unique_nonzero_key
    (p : Nat → Bool) (numProcesses k0 : Nat)
    (hn : 1 ≤ numProcesses) (hk : k0 < upperBound) (hk0 : k0 ≠ 0)
    (hp : p k0 = true) (huniq : ∀ j, j < upperBound → p j = true → j = k0) :
    reportV1 p numProcesses = some k0 := by
  obtain ⟨r0, hr0n, hlo, hhi⟩ := rank_coverage numProcesses hn k0 hk
  have hfalse : ∀ j, j < upperBound → j ≠ k0 → p j = false := by
    intro j hj hne
    cases hpj : p j
    · rfl
    · exact absurd (huniq j hj hpj) hne
  have hr0 : rankResult p numProcesses r0 = k0 := by
    unfold rankResult localSearch
    apply searchLoop_finds p _ _ k0 hlo (by omega) hp
    intro j hj1 hj2
    exact hfalse j (by omega) (by omega)
  have hother : ∀ r, r < numProcesses → r ≠ r0 → rankResult p numProcesses r = 0 := by
    intro r hrn hne
    unfold rankResult localSearch
    apply searchLoop_eq_zero
    intro k hk1 hk2
    have hkup : k < upperBoundLocal numProcesses r := by omega
    have hku : k < upperBound := lt_of_lt_of_le hkup (upperBoundLocal_le _ _ hrn)
    apply hfalse k hku
    rcases lt_or_gt_of_ne hne with hlt | hgt
    · have := rank_disjoint numProcesses r r0 hlt hr0n
      omega
    · have := rank_disjoint numProcesses r0 r hgt hrn
      omega
  have hcoll := collectFound_eq p numProcesses r0 k0 hk0 hr0 hother
    numProcesses le_rfl
  unfold reportV1 globalFoundKey
  rw [hcoll, if_pos hr0n]
  simp [hk0]

theorem completeness_reports_unique_nonzero_key_witness :
    reportV1 (fun k => decide (k = 3)) 2 = some 3 :=
  completeness_reports_unique_nonzero_key (fun k => decide (k = 3)) 2 3
    (by omega) (by norm_num [upperBound]) (by omega) (by decide)
    (fun j _ h => of_decide_eq_true h)

/-- C1, counterexample: key 0 is the unique satisfier, one worker — the run
reports "Key not found" because `foundKey = 0` doubles as the not-found
sentinel, refuting "including when that KeyId is 0". -/
theorem completeness_fails_at_key_zero :
    (fun k => decide (k = 0)) 0 = true ∧
    (∀ j, j < upperBound → (fun k => decide (k = 0)) j = true → j = 0) ∧
    reportV1 (fun k => decide (k = 0)) 1 = none := by
  refine ⟨by decide, fun j _ h => of_decide_eq_true h, ?_⟩
  have h0 : rankResult (fun k => decide (k = 0)) 1 0 = 0 := by
    unfold rankResult
    have hlow : lowerBound 1 0 = 0 := by simp [lowerBound]
    rw [hlow]
    unfold localSearch
    apply searchLoop_head
    · have : upperBoundLocal 1 0 = upperBound := by simp [upperBoundLocal]
      rw [this]
      norm_num [upperBound]
    · decide
  have hglob : globalFoundKey (fun k => decide (k = 0)) 1 = 0 := by
    unfold globalFoundKey
    simp [collectFound, h0]
  unfold reportV1
  rw [hglob]
  simp

/-! ## Properties of the v2 found-key state -/

/-- Once the local slot is set, later critical-section writers are no-ops. -/
theorem runCritical_of_found :
    ∀ (ks : List Nat) (st : FoundState), st.keyFound = true →
      runCritical st ks = st := by
  intro ks
  induction ks with
  | nil => intro st _; rfl
  | cons a rest ih =>
    intro st h
    have : criticalUpdate st a = st := by unfold criticalUpdate; rw [h]; rfl
    show runCritical (criticalUpdate st a) rest = st
    rw [this]
    exact ih st h

/-- C2, amended: the local discovery path adopts at most once — the critical
section writes only an unset slot, so the first writer wins and the slot is
never changed locally afterwards; and a drain of announcement messages keeps
the adopted value only when every announcement carries that same key (the
receive path adopts unconditionally, as the counterexample shows). -/
theorem foundState_single_local_adoption :
    ∀ (st : FoundState) (ks msgs : List Nat) (z k : Nat),
      (st.keyFound = true → runCritical st ks = st) ∧
      runCritical ⟨false, z⟩ (k :: ks) = ⟨true, k⟩ ∧
      ((∀ m ∈ msgs, m = k) → recvAll ⟨true, k⟩ msgs = ⟨true, k⟩) := by
  intro st ks msgs z k
  refine ⟨runCritical_of_found ks st, ?_, ?_⟩
  · show runCritical (criticalUpdate ⟨false, z⟩ k) ks = ⟨true, k⟩
    have : criticalUpdate ⟨false, z⟩ k = ⟨true, k⟩ := rfl
    rw [this]
    exact runCritical_of_found ks ⟨true, k⟩ rfl
  · induction msgs with
    | nil => intro _; rfl
    | cons m rest ih =>
      intro h
      show recvAll (recvFound ⟨true, k⟩ m) rest = ⟨true, k⟩
      rw [show recvFound ⟨true, k⟩ m = ⟨true, m⟩ from rfl,
        h m (List.mem_cons_self m rest)]
      exact ih (fun x hx => h x (List.mem_cons_of_mem m hx))

theorem foundState_single_local_adoption_witness :
    runCritical ⟨false, 0⟩ [4, 9] = ⟨true, 4⟩ ∧
    recvAll ⟨true, 4⟩ [4] = ⟨true, 4⟩ :=
  ⟨(foundState_single_local_adoption ⟨false, 0⟩ [9] [4] 0 4).2.1,
   (foundState_single_local_adoption ⟨false, 0⟩ [9] [4] 0 4).2.2 (by decide)⟩

/-- C2, counterexample: a process whose slot was set to key 2 by a first
announcement overwrites it with key 7 when a second pending announcement is
drained — the state is rewritten with a different key. -/
theorem foundState_overwritten_by_second_message :
    recvAll ⟨false, 0⟩ [2] = ⟨true, 2⟩ ∧
    recvAll ⟨false, 0⟩ [2, 7] = ⟨true, 7⟩ := by decide

/-- C4, amended: a recipient adopts every incoming found-key announcement
unconditionally — after draining its pending announcements it holds the last
received key, whatever its own previous value was; no smaller-key
comparison takes place. -/
theorem recv_adopts_last_not_smallest :
    ∀ (st : FoundState) (ms : List Nat) (m : Nat),
      recvAll st (ms ++ [m]) = ⟨true, m⟩ := by
  intro st ms m
  unfold recvAll
  rw [List.foldl_append]
  rfl

/-- C4, counterexample: a process already holding adopted key 3 receives an
announcement of key 5 and ends holding 5, not the numerically smaller
`min 3 5 = 3` the claim requires. -/
theorem recv_ignores_smaller_tiebreak :
    (recvAll ⟨true, 3⟩ [5]).foundKey = 5 ∧
    (recvAll ⟨true, 3⟩ [5]).foundKey ≠ min 3 5 := by decide

/-! ## Properties of the v3 dispatcher/worker sentinel -/

/-- C7: a work-request hitting an empty backlog is answered with the
empty-range sentinel (`start == end`), and a worker receiving any
empty-range reply leaves its local queue unchanged (does not enqueue it). -/
theorem drained_sentinel_round_trip :
    ∀ (q : List KeySpace) (space : KeySpace), space.start = space.stop →
      (dispatcherReply []).1.start = (dispatcherReply []).1.stop ∧
      (dispatcherReply []).2 = [] ∧
      workerHandleReply q space = q := by
  intro q space h
  refine ⟨rfl, rfl, ?_⟩
  unfold workerHandleReply
  simp [h]

theorem drained_sentinel_round_trip_witness :
    workerHandleReply [KeySpace.mk 1 9] ⟨4, 4⟩ = [KeySpace.mk 1 9] :=
  (drained_sentinel_round_trip [KeySpace.mk 1 9] ⟨4, 4⟩ rfl).2.2

/-! ## Properties of the codec and of the weak-key path -/

/-- The blob of `key`, written out byte by byte (the powers of two are the
shifts 56, 48, ..., 0 of `longToKey`). -/
theorem longToKey_eq_bytes (k : Nat) :
    longToKey k = [k / 72057594037927936 % 256, k / 281474976710656 % 256,
      k / 1099511627776 % 256, k / 4294967296 % 256, k / 16777216 % 256,
      k / 65536 % 256, k / 256 % 256, k / 1 % 256] := rfl

/-- C9: the KeyId-to-blob codec is injective on the search domain
`[0, 2^56)`: distinct KeyIds yield distinct 8-byte arrays.  (Purity is
inherent: `longToKey` is a function of the key alone.) -/
theorem longToKey_injective (k1 k2 : Nat) (h1 : k1 < upperBound)
    (h2 : k2 < upperBound) (hne : k1 ≠ k2) : longToKey k1 ≠ longToKey k2 := by
  intro heq
  rw [longToKey_eq_bytes, longToKey_eq_bytes] at heq
  simp only [List.cons.injEq, and_true] at heq
  obtain ⟨e1, e2, e3, e4, e5, e6, e7, e8⟩ := heq
  norm_num [upperBound] at h1 h2
  omega

theorem longToKey_injective_witness : longToKey 0 ≠ longToKey 1 :=
  longToKey_injective 0 1 (by norm_num [upperBound]) (by norm_num [upperBound])
    (by omega)

theorem oddParityByte_congr {x y : Nat} (h : x / 2 = y / 2) :
    oddParityByte x = oddParityByte y := by
  unfold oddParityByte
  rw [h]

/-- Parity normalization only rewrites the low bit: the upper seven bits
survive. -/
theorem oddParityByte_div_two (x : Nat) : oddParityByte x / 2 = x / 2 := by
  unfold oddParityByte
  split <;> omega

/-- The normalized blob, written out byte by byte. -/
theorem setOddParity_longToKey_eq (a : Nat) :
    setOddParity (longToKey a) =
      [oddParityByte (a / 72057594037927936 % 256),
       oddParityByte (a / 281474976710656 % 256),
       oddParityByte (a / 1099511627776 % 256),
       oddParityByte (a / 4294967296 % 256),
       oddParityByte (a / 16777216 % 256),
       oddParityByte (a / 65536 % 256),
       oddParityByte (a / 256 % 256),
       oddParityByte (a / 1 % 256)] := by
  rw [longToKey_eq_bytes]
  rfl

/-- Componentwise extraction from a packed 8-bit sum. -/
theorem bitsum_inj (x0 x1 x2 x3 x4 x5 x6 x7 y0 y1 y2 y3 y4 y5 y6 y7 : Nat)
    (h : x0 % 2 + x1 % 2 * 2 + x2 % 2 * 4 + x3 % 2 * 8 + x4 % 2 * 16 +
      x5 % 2 * 32 + x6 % 2 * 64 + x7 % 2 * 128 =
      y0 % 2 + y1 % 2 * 2 + y2 % 2 * 4 + y3 % 2 * 8 + y4 % 2 * 16 +
      y5 % 2 * 32 + y6 % 2 * 64 + y7 % 2 * 128) :
    x0 % 2 = y0 % 2 ∧ x1 % 2 = y1 % 2 ∧ x2 % 2 = y2 % 2 ∧ x3 % 2 = y3 % 2 ∧
    x4 % 2 = y4 % 2 ∧ x5 % 2 = y5 % 2 ∧ x6 % 2 = y6 % 2 ∧ x7 % 2 = y7 % 2 := by
  omega

/-- A byte is recovered from its upper seven bits and its low bit. -/
theorem byte_glue (a b D : Nat)
    (hh : a / D % 256 / 2 = b / D % 256 / 2) (hb : a / D % 2 = b / D % 2) :
    a / D % 256 = b / D % 256 := by
  have h1 : a / D % 256 % 2 = a / D % 2 := by omega
  have h2 : b / D % 256 % 2 = b / D % 2 := by omega
  omega

/-- At most `2^8` of the `2^64` possible KeyIds share any given normalized
key block: a class member is determined by its 8 parity bits. -/
theorem parity_class_card_le (k : Nat) :
    ((Finset.range (2 ^ 64)).filter
      (fun j => setOddParity (longToKey j) = setOddParity (longToKey k))).card
      ≤ 2 ^ 8 := by
  have hmain : ((Finset.range (2 ^ 64)).filter
      (fun j => setOddParity (longToKey j) = setOddParity (longToKey k))).card
      ≤ (Finset.range 256).card := by
    apply Finset.card_le_card_of_injOn parityIdx
    · intro a _
      simp only [Finset.mem_range]
      unfold parityIdx
      omega
    · intro a ha b hb hab
      simp only [Finset.coe_filter, Set.mem_setOf_eq, Finset.mem_range] at ha hb
      obtain ⟨ha64, hak⟩ := ha
      obtain ⟨hb64, hbk⟩ := hb
      have hab2 : setOddParity (longToKey a) = setOddParity (longToKey b) := by
        rw [hak, hbk]
      rw [setOddParity_longToKey_eq, setOddParity_longToKey_eq] at hab2
      simp only [List.cons.injEq, and_true] at hab2
      obtain ⟨f1, f2, f3, f4, f5, f6, f7, f8⟩ := hab2
      have g1 : a / 72057594037927936 % 256 / 2 = b / 72057594037927936 % 256 / 2 := by
        rw [← oddParityByte_div_two (a / 72057594037927936 % 256), f1, oddParityByte_div_two]
      have g2 : a / 281474976710656 % 256 / 2 = b / 281474976710656 % 256 / 2 := by
        rw [← oddParityByte_div_two (a / 281474976710656 % 256), f2, oddParityByte_div_two]
      have g3 : a / 1099511627776 % 256 / 2 = b / 1099511627776 % 256 / 2 := by
        rw [← oddParityByte_div_two (a / 1099511627776 % 256), f3, oddParityByte_div_two]
      have g4 : a / 4294967296 % 256 / 2 = b / 4294967296 % 256 / 2 := by
        rw [← oddParityByte_div_two (a / 4294967296 % 256), f4, oddParityByte_div_two]
      have g5 : a / 16777216 % 256 / 2 = b / 16777216 % 256 / 2 := by
        rw [← oddParityByte_div_two (a / 16777216 % 256), f5, oddParityByte_div_two]
      have g6 : a / 65536 % 256 / 2 = b / 65536 % 256 / 2 := by
        rw [← oddParityByte_div_two (a / 65536 % 256), f6, oddParityByte_div_two]
      have g7 : a / 256 % 256 / 2 = b / 256 % 256 / 2 := by
        rw [← oddParityByte_div_two (a / 256 % 256), f7, oddParityByte_div_two]
      have g8 : a / 1 % 256 / 2 = b / 1 % 256 / 2 := by
        rw [← oddParityByte_div_two (a / 1 % 256), f8, oddParityByte_div_two]
      unfold parityIdx at hab
      obtain ⟨t0, t1, t2, t3, t4, t5, t6, t7⟩ :=
        bitsum_inj a (a / 256) (a / 65536) (a / 16777216) (a / 4294967296)
          (a / 1099511627776) (a / 281474976710656) (a / 72057594037927936)
          b (b / 256) (b / 65536) (b / 16777216) (b / 4294967296)
          (b / 1099511627776) (b / 281474976710656) (b / 72057594037927936) hab
      have hb8 : a / 1 % 2 = b / 1 % 2 := by omega
      have e1 := byte_glue a b 72057594037927936 g1 t7
      have e2 := byte_glue a b 281474976710656 g2 t6
      have e3 := byte_glue a b 1099511627776 g3 t5
      have e4 := byte_glue a b 4294967296 g4 t4
      have e5 := byte_glue a b 16777216 g5 t3
      have e6 := byte_glue a b 65536 g6 t2
      have e7 := byte_glue a b 256 g7 t1
      have e8 := byte_glue a b 1 g8 hb8
      have hA : a < 18446744073709551616 := by omega
      have hB : b < 18446744073709551616 := by omega
      clear hab f1 f2 f3 f4 f5 f6 f7 f8 g1 g2 g3 g4 g5 g6 g7 g8
      clear t0 t1 t2 t3 t4 t5 t6 t7 hb8 ha64 hb64 hak hbk
      omega
  simpa using hmain

/-- C10: `decrypt` normalizes the key with `DES_set_odd_parity`, so KeyIds
whose blobs differ only in the parity (low) bit of each byte produce
byte-identical plaintext and the same `tryKey` verdict; consequently at most
`2^8` KeyIds in the 64-bit blob space share one effective key. -/
theorem parity_bit_collapse (c : Cipher) (ct phrase buf : List Nat) (k1 k2 : Nat)
    (hpar : ∀ j, j < 8 → (longToKey k1).getD j 0 / 2 = (longToKey k2).getD j 0 / 2) :
    decrypt c (longToKey k1) ct buf = decrypt c (longToKey k2) ct buf ∧
    tryKey c k1 ct phrase buf = tryKey c k2 ct phrase buf ∧
    ∀ k : Nat, ((Finset.range (2 ^ 64)).filter
      (fun j => setOddParity (longToKey j) = setOddParity (longToKey k))).card
      ≤ 2 ^ 8 := by
  have hkey : setOddParity (longToKey k1) = setOddParity (longToKey k2) := by
    rw [setOddParity_longToKey_eq, setOddParity_longToKey_eq]
    have h0 : k1 / 72057594037927936 % 256 / 2 = k2 / 72057594037927936 % 256 / 2 :=
      hpar 0 (by norm_num)
    have h1 : k1 / 281474976710656 % 256 / 2 = k2 / 281474976710656 % 256 / 2 :=
      hpar 1 (by norm_num)
    have h2 : k1 / 1099511627776 % 256 / 2 = k2 / 1099511627776 % 256 / 2 :=
      hpar 2 (by norm_num)
    have h3 : k1 / 4294967296 % 256 / 2 = k2 / 4294967296 % 256 / 2 :=
      hpar 3 (by norm_num)
    have h4 : k1 / 16777216 % 256 / 2 = k2 / 16777216 % 256 / 2 :=
      hpar 4 (by norm_num)
    have h5 : k1 / 65536 % 256 / 2 = k2 / 65536 % 256 / 2 :=
      hpar 5 (by norm_num)
    have h6 : k1 / 256 % 256 / 2 = k2 / 256 % 256 / 2 :=
      hpar 6 (by norm_num)
    have h7 : k1 / 1 % 256 / 2 = k2 / 1 % 256 / 2 :=
      hpar 7 (by norm_num)
    rw [oddParityByte_congr h0, oddParityByte_congr h1, oddParityByte_congr h2,
      oddParityByte_congr h3, oddParityByte_congr h4, oddParityByte_congr h5,
      oddParityByte_congr h6, oddParityByte_congr h7]
  have hdec : decrypt c (longToKey k1) ct buf = decrypt c (longToKey k2) ct buf := by
    unfold decrypt
    rw [hkey]
  refine ⟨hdec, ?_, fun k => parity_class_card_le k⟩
  unfold tryKey
  rw [hdec]

theorem parity_bit_collapse_witness :
    (0 : Nat) ≠ 1 ∧
    tryKey alwaysWeakCipher 0 [1] [65] [] = tryKey alwaysWeakCipher 1 [1] [65] [] :=
  ⟨by decide,
   (parity_bit_collapse alwaysWeakCipher [1] [65] [] 0 1 (by decide)).2.1⟩

/-- C6, counterexample: on a rejected (weak) key, `decrypt` substitutes
nothing — the stale buffer contents survive, and when they happen to contain
the phrase, `tryKey` returns `true` for the weak key, refuting "the
candidate buffer ... is always rejected by the verify stage". -/
theorem weakKey_match_on_stale_buffer :
    alwaysWeakCipher.weak (setOddParity (longToKey 0)) = true ∧
    tryKey alwaysWeakCipher 0 [1] [65] [65, 66] = true := by decide

/-- C6, amended: on a rejected key `decrypt` leaves the caller's buffer
unchanged (no substitution of an empty buffer), so `tryKey` returns `false`
exactly when the leftover buffer does not already contain the phrase; the
surrounding scan then continues with the next key. -/
theorem weakKey_no_substitution (c : Cipher) (key : Nat) (ct phrase buf : List Nat)
    (hweak : c.weak (setOddParity (longToKey key)) = true) :
    decrypt c (longToKey key) ct buf = buf ∧
    (strstrHit phrase buf = false → tryKey c key ct phrase buf = false) ∧
    (∀ (p : Nat → Bool) (lo fuel : Nat), p lo = false →
      searchLoop p lo (fuel + 1) = searchLoop p (lo + 1) fuel) := by
  have hdec : decrypt c (longToKey key) ct buf = buf := by
    simp [decrypt, hweak]
  refine ⟨hdec, ?_, ?_⟩
  · intro hmiss
    unfold tryKey
    rw [hdec]
    by_cases hlen : (cstr buf).length = 0
    · simp [hlen]
    · simp [hlen, hmiss]
  · intro p lo fuel h
    simp [searchLoop, h]

theorem weakKey_no_substitution_witness :
    tryKey alwaysWeakCipher 0 [1] [65] [66] = false :=
  (weakKey_no_substitution alwaysWeakCipher 0 [1] [65] [66] (by decide)).2.1
    (by decide)

/-! ## Properties of the v3 partitioner -/

/-- C++ `long` division of nonnegative operands agrees with Euclidean
division. -/
theorem tdiv_eq_ediv_of_nonneg (a b : Int) (ha : 0 ≤ a) (hb : 0 ≤ b) :
    a.tdiv b = a / b := by
  obtain ⟨m, rfl⟩ := Int.eq_ofNat_of_zero_le ha
  obtain ⟨n, rfl⟩ := Int.eq_ofNat_of_zero_le hb
  rfl

theorem genKS_eq_map (s e c : Int) :
    generateIntelligentKeySpaces s e c = (List.range c.toNat).map (spaceAt s e c) :=
  rfl

theorem genKS_length (s e c : Int) :
    (generateIntelligentKeySpaces s e c).length = c.toNat := by
  rw [genKS_eq_map]
  simp

theorem genKS_mem_iff (s e c : Int) (sp : KeySpace) :
    sp ∈ generateIntelligentKeySpaces s e c ↔
      ∃ i : Nat, i < c.toNat ∧ sp = spaceAt s e c i := by
  rw [genKS_eq_map]
  simp [List.mem_map, List.mem_range, eq_comm]

section PartitionArith

variable {s e c : Int}

theorem sz_nonneg (hse : s < e) (hc : 1 ≤ c) : 0 ≤ (e - s).tdiv c := by
  rw [tdiv_eq_ediv_of_nonneg _ _ (by omega) (by omega)]
  exact Int.ediv_nonneg (by omega) (by omega)

theorem csz_le (hse : s < e) (hc : 1 ≤ c) : c * ((e - s).tdiv c) ≤ e - s := by
  rw [tdiv_eq_ediv_of_nonneg _ _ (by omega) (by omega)]
  have h1 := Int.ediv_add_emod (e - s) c
  have h2 := Int.emod_nonneg (e - s) (show c ≠ 0 by omega)
  linarith

/-- The upper end of a non-last sub-range stays within `e`. -/
theorem stop_le (hse : s < e) (hc : 1 ≤ c) (i : Nat) (hi : (i : Int) + 1 ≤ c) :
    s + (i : Int) * ((e - s).tdiv c) + (e - s).tdiv c ≤ e := by
  have h0 := sz_nonneg hse hc
  have h1 := csz_le hse hc
  have h2 : ((i : Int) + 1) * ((e - s).tdiv c) ≤ c * ((e - s).tdiv c) :=
    mul_le_mul_of_nonneg_right hi h0
  nlinarith [h2]

/-- Every key of `[s, e)` falls in some constructed sub-range. -/
theorem coverage_fwd (hse : s < e) (hc : 1 ≤ c) (k : Int) (hk1 : s ≤ k)
    (hk2 : k < e) :
    ∃ i : Nat, i < c.toNat ∧ (spaceAt s e c i).start ≤ k ∧
      k < (spaceAt s e c i).stop := by
  set sz := (e - s).tdiv c with hszdef
  have hsz0 : 0 ≤ sz := sz_nonneg hse hc
  by_cases hcase : k - s < (c - 1) * sz
  · have hszpos : 0 < sz := by
      rcases lt_or_eq_of_le hsz0 with h | h
      · exact h
      · exfalso
        rw [← h] at hcase
        simp at hcase
        omega
    set i : Int := (k - s) / sz with hidef
    have hi0 : 0 ≤ i := Int.ediv_nonneg (by omega) hsz0
    have hdm := Int.ediv_add_emod (k - s) sz
    have hm0 := Int.emod_nonneg (k - s) (show sz ≠ 0 by omega)
    have hmlt := Int.emod_lt_of_pos (k - s) hszpos
    have hlo : sz * i ≤ k - s := by linarith
    have hhi : k - s < sz * i + sz := by linarith
    have hic : i < c - 1 := by
      by_contra hcon
      push_neg at hcon
      have : (c - 1) * sz ≤ i * sz := mul_le_mul_of_nonneg_right hcon hsz0
      nlinarith
    refine ⟨i.toNat, by omega, ?_, ?_⟩
    · show s + ((i.toNat : Int)) * sz ≤ k
      rw [Int.toNat_of_nonneg hi0]
      nlinarith
    · show k < (spaceAt s e c i.toNat).stop
      unfold spaceAt
      rw [if_neg (by rw [Int.toNat_of_nonneg hi0]; omega)]
      show k < s + ((i.toNat : Int)) * sz + sz
      rw [Int.toNat_of_nonneg hi0]
      nlinarith
  · push_neg at hcase
    refine ⟨c.toNat - 1, by omega, ?_, ?_⟩
    · show s + ((c.toNat - 1 : Nat) : Int) * sz ≤ k
      have : ((c.toNat - 1 : Nat) : Int) = c - 1 := by omega
      rw [this]
      linarith
    · unfold spaceAt
      rw [if_pos (by omega)]
      exact hk2

/-- Keys of any constructed sub-range lie in `[s, e)`. -/
theorem coverage_bwd (hse : s < e) (hc : 1 ≤ c) (k : Int) (i : Nat)
    (hi : i < c.toNat) (h1 : (spaceAt s e c i).start ≤ k)
    (h2 : k < (spaceAt s e c i).stop) : s ≤ k ∧ k < e := by
  have hsz0 : 0 ≤ (e - s).tdiv c := sz_nonneg hse hc
  have hstart : s ≤ (spaceAt s e c i).start := by
    show s ≤ s + (i : Int) * ((e - s).tdiv c)
    have : 0 ≤ (i : Int) * ((e - s).tdiv c) := mul_nonneg (by omega) hsz0
    omega
  constructor
  · omega
  · by_cases hlast : (i : Int) = c - 1
    · have : (spaceAt s e c i).stop = e := by
        unfold spaceAt
        rw [if_pos hlast]
      omega
    · have hstop : (spaceAt s e c i).stop =
          s + (i : Int) * ((e - s).tdiv c) + (e - s).tdiv c := by
        unfold spaceAt
        rw [if_neg hlast]
      have := stop_le hse hc i (by omega)
      omega

/-- Two distinct constructed sub-ranges share no key. -/
theorem spaces_disjoint (hse : s < e) (hc : 1 ≤ c) (i j : Nat)
    (hj : j < c.toNat) (hij : i < j) (k : Int)
    (h1 : (spaceAt s e c i).start ≤ k ∧ k < (spaceAt s e c i).stop)
    (h2 : (spaceAt s e c j).start ≤ k ∧ k < (spaceAt s e c j).stop) : False := by
  have hsz0 : 0 ≤ (e - s).tdiv c := sz_nonneg hse hc
  have hlast : ¬((i : Int) = c - 1) := by omega
  have hstop : (spaceAt s e c i).stop =
      s + (i : Int) * ((e - s).tdiv c) + (e - s).tdiv c := by
    unfold spaceAt
    rw [if_neg hlast]
  have hmono : ((i : Int) + 1) * ((e - s).tdiv c) ≤ (j : Int) * ((e - s).tdiv c) :=
    mul_le_mul_of_nonneg_right (by omega) hsz0
  have hs1 : (spaceAt s e c j).start = s + (j : Int) * ((e - s).tdiv c) := rfl
  have h1b := h1.2
  have h2a := h2.1
  rw [hstop] at h1b
  rw [hs1] at h2a
  nlinarith

end PartitionArith

/-- C3: for `start < end` and `count ≥ 1`, the partitioner returns exactly
`count` sub-ranges whose union is `[start, end)` with zero gap and zero
overlap, the remainder-absorbing sub-range ending exactly at `end`; and the
v1 per-process static bounds likewise tile `[0, 2^56)` exactly over the
ranks. -/
theorem partition_coverage (s e c : Int) (hse : s < e) (hc : 1 ≤ c) :
    (generateIntelligentKeySpaces s e c).length = c.toNat ∧
    (∀ k : Int, (s ≤ k ∧ k < e) ↔
      ∃ sp ∈ generateIntelligentKeySpaces s e c, sp.start ≤ k ∧ k < sp.stop) ∧
    List.Pairwise
      (fun a b => ∀ k : Int,
        ¬((a.start ≤ k ∧ k < a.stop) ∧ (b.start ≤ k ∧ k < b.stop)))
      (generateIntelligentKeySpaces s e c) ∧
    ((generateIntelligentKeySpaces s e c).getLast?).map KeySpace.stop = some e ∧
    (∀ (n k : Nat), 1 ≤ n →
      (k < upperBound ↔ ∃ r, r < n ∧ lowerBound n r ≤ k ∧ k < upperBoundLocal n r)) ∧
    (∀ (n r1 r2 : Nat), r1 < r2 → r2 < n →
      upperBoundLocal n r1 ≤ lowerBound n r2) := by
  refine ⟨genKS_length s e c, ?_, ?_, ?_, ?_, ?_⟩
  · intro k
    constructor
    · rintro ⟨hk1, hk2⟩
      obtain ⟨i, hi, hs, he⟩ := coverage_fwd hse hc k hk1 hk2
      exact ⟨spaceAt s e c i, (genKS_mem_iff s e c _).mpr ⟨i, hi, rfl⟩, hs, he⟩
    · rintro ⟨sp, hmem, hs, he⟩
      obtain ⟨i, hi, rfl⟩ := (genKS_mem_iff s e c sp).mp hmem
      exact coverage_bwd hse hc k i hi hs he
  · rw [genKS_eq_map]
    rw [List.pairwise_iff_getElem]
    intro i j hi hj hij
    simp only [List.length_map, List.length_range] at hi hj
    simp only [List.getElem_map, List.getElem_range]
    intro k hk
    exact spaces_disjoint hse hc i j hj hij k hk.1 hk.2
  · rw [genKS_eq_map, List.getLast?_eq_getElem?]
    simp only [List.length_map, List.length_range, List.getElem?_map]
    rw [List.getElem?_range (show c.toNat - 1 < c.toNat by omega)]
    show some (spaceAt s e c (c.toNat - 1)).stop = some e
    unfold spaceAt
    rw [if_pos (show ((c.toNat - 1 : Nat) : Int) = c - 1 by omega)]
  · intro n k hn
    constructor
    · intro hk
      exact rank_coverage n hn k hk
    · rintro ⟨r, hr, _, h2⟩
      exact lt_of_lt_of_le h2 (upperBoundLocal_le n r hr)
  · intro n r1 r2 h12 h2n
    exact rank_disjoint n r1 r2 h12 h2n

theorem partition_coverage_witness :
    (generateIntelligentKeySpaces 0 23 5).length = (5 : Int).toNat ∧
    upperBoundLocal 4 1 ≤ lowerBound 4 2 :=
  ⟨(partition_coverage 0 23 5 (by decide) (by decide)).1,
   (partition_coverage 0 23 5 (by decide) (by decide)).2.2.2.2.2 4 1 2
     (by omega) (by omega)⟩

/-- C8, counterexample: called on the inverted full range `[100, 0)` with
`count = 5`, the partitioner performs no validation and returns five
(garbage) ranges instead of failing with `InvalidArgument`. -/
theorem partitioner_no_validation_cex :
    generateIntelligentKeySpaces 100 0 5 =
      [⟨100, 80⟩, ⟨80, 60⟩, ⟨60, 40⟩, ⟨40, 20⟩, ⟨20, 0⟩] ∧
    (generateIntelligentKeySpaces 100 0 5).length = 5 := by decide

/-- C8, amended: the partitioner has no validation and no error path: a
negative count yields the empty sequence, a positive count always yields
`count` ranges — also for an empty or inverted full range.  (`count = 0`
divides by zero in the C++ source, undefined behavior, and is excluded.) -/
theorem partitioner_no_validation (s e c : Int) :
    (c < 0 → generateIntelligentKeySpaces s e c = []) ∧
    (1 ≤ c → (generateIntelligentKeySpaces s e c).length = c.toNat) := by
  constructor
  · intro h
    rw [genKS_eq_map]
    rw [show c.toNat = 0 by omega]
    rfl
  · intro _
    exact genKS_length s e c

theorem partitioner_no_validation_witness :
    generateIntelligentKeySpaces 7 3 (-2) = [] ∧
    (generateIntelligentKeySpaces 5 2 3).length = (3 : Int).toNat :=
  ⟨(partitioner_no_validation 7 3 (-2)).1 (by decide),
   (partitioner_no_validation 5 2 3).2 (by decide)⟩

/-! ## The v3 pipeline on an empty range -/

/-- Starting `searchRange` on an empty range, nothing is ever generated, no
thread but the generator can move, and the found-state stays unset: the
invariant below holds in every reachable pipeline state. -/
theorem pipeReach_empty_invariant (space : KeySpace) (decBuf : Int → List Nat)
    (matchb : List Nat → Bool) (hempty : space.start = space.stop) :
    ∀ st, PipeReach space decBuf matchb st →
      st.generatedKeys = [] ∧ st.encryptedData = [] ∧ st.keyFound = false ∧
      st.genPos = space.start ∧ st.foundKey = 0 ∧
      st.encDone = false ∧ st.cmpDone = false := by
  intro st h
  unfold PipeReach at h
  induction h with
  | refl => exact ⟨rfl, rfl, rfl, rfl, rfl, rfl, rfl⟩
  | tail hr hstep ih =>
    obtain ⟨ih1, ih2, ih3, ih4, ih5, ih6, ih7⟩ := ih
    cases hstep with
    | genPush h1 h2 =>
      rw [ih4, hempty] at h2
      exact absurd h2 (lt_irrefl _)
    | genBreakFound h1 h2 =>
      exact ⟨ih1, ih2, ih3, ih4, ih5, ih6, ih7⟩
    | genFinish h1 h2 =>
      exact ⟨ih1, ih2, ih3, ih4, ih5, ih6, ih7⟩
    | encConsume k rest h1 h2 h3 =>
      rw [ih1] at h3
      cases h3
    | encBreakFound h1 h2 =>
      rw [ih3] at h2
      cases h2
    | cmpConsumeMiss k bf rest h1 h2 h3 h4 =>
      rw [ih2] at h3
      cases h3
    | cmpConsumeHit k bf rest h1 h2 h3 h4 =>
      rw [ih2] at h3
      cases h3
    | cmpBreakFound h1 h2 =>
      rw [ih3] at h2
      cases h2

/-- C5 (the code contradicts it): on an empty range the pipeline never
terminates — in every reachable state the encrypt and compare threads have
not returned (they are parked in `cv.wait` on a condition no thread will
ever make true) and no result was produced, so `searchRange`, which joins
all three threads, never returns at all — let alone "not found"
immediately. -/
theorem emptyRange_pipeline_never_returns (space : KeySpace)
    (decBuf : Int → List Nat) (matchb : List Nat → Bool) (st : PipeState)
    (hempty : space.start = space.stop)
    (hreach : PipeReach space decBuf matchb st) :
    st.encDone = false ∧ st.cmpDone = false ∧ st.keyFound = false ∧
    st.generatedKeys = [] := by
  have h := pipeReach_empty_invariant space decBuf matchb hempty st hreach
  exact ⟨h.2.2.2.2.2.1, h.2.2.2.2.2.2, h.2.2.1, h.1⟩

theorem emptyRange_pipeline_never_returns_witness :
    (pipeInit ⟨5, 5⟩).encDone = false ∧ (pipeInit ⟨5, 5⟩).cmpDone = false ∧
    (pipeInit ⟨5, 5⟩).keyFound = false ∧ (pipeInit ⟨5, 5⟩).generatedKeys = [] :=
  emptyRange_pipeline_never_returns ⟨5, 5⟩ (fun _ => []) (fun _ => false)
    (pipeInit ⟨5, 5⟩) rfl Relation.ReflTransGen.refl

end DESBrute
